import Mathlib

/-!
Verification of the Scope/Item composition model, the import consolidation
algorithm and the render entry point of the `codegen` crate.

The definitions below are a shallow embedding of the Rust sources:
`scope.rs`, `module.rs`, `import.rs`, `const.rs` and `impl.rs` are transcribed
directly.  Files that the crate uses but that are not part of the provided
sources (`formatter.rs`, `docs.rs`, `struct.rs`, `function.rs`, `trait.rs`,
`enum.rs`, `type_alias.rs`, `type.rs`, `field.rs`, `bound.rs`, `item.rs`) are
modelled from the specification; each such definition carries a doc comment
saying so.  Rust's `IndexMap` (insertion-ordered map built exclusively through
the `entry(k).or_default()` API) is modelled as an association list in
insertion order; mutation through a returned `&mut` reference is modelled by
an explicit update of the first (and, through the entry API, only) occurrence
of the key.
-/

set_option maxRecDepth 10000

namespace Codegen

/-- Modelled from the spec: `formatter.rs` is not in the provided sources.
State is "a mutable text sink, an integer indentation level"; the invariant is
that every (non-blank) line written at level N is prefixed by N indent units
of four spaces. -/
structure Formatter where
  buf : String
  level : Nat
deriving DecidableEq

def Formatter.empty : Formatter := { buf := "", level := 0 }

def indentOf (level : Nat) : String :=
  String.join (List.replicate level "    ")

def Formatter.atLineStart (f : Formatter) : Bool :=
  match f.buf.data.getLast? with
  | none => true
  | some c => c = '\n'

def Formatter.pushChar (f : Formatter) (c : Char) : Formatter :=
  if f.atLineStart ∧ c ≠ '\n' then
    { f with buf := f.buf ++ indentOf f.level ++ c.toString }
  else
    { f with buf := f.buf.push c }

def Formatter.writeStr (f : Formatter) (s : String) : Formatter :=
  s.data.foldl Formatter.pushChar f

/-- Modelled from the spec: `docs.rs` is not in the provided sources.  The
spec only requires "optional documentation" rendered as its own block; we
model a documentation value as its text, rendered as comment lines. -/
structure Docs where
  docs : String
deriving DecidableEq

def Docs.new (d : String) : Docs := ⟨d⟩

/-- Modelled from the spec: renders the documentation block, one comment line
per line of text, each line ending in a newline. -/
def Docs.fmt (d : Docs) (f : Formatter) : Formatter :=
  (d.docs.splitOn "\n").foldl (fun f line => f.writeStr ("/// " ++ line ++ "\n")) f

/-- Transcription of `Import` from `import.rs`: a `use` statement entry
holding only the optional visibility. -/
structure Import where
  vis : Option String
deriving DecidableEq

/-- Transcription of `Import::new` / `Default`. -/
def Import.new : Import := ⟨none⟩

/-- Transcription of `Import::vis`. -/
def Import.setVis (_i : Import) (v : String) : Import := ⟨some v⟩

/-- Modelled from the spec: `type.rs` is not in the provided sources; a type
is used by `const.rs` / `impl.rs` only as a name rendered verbatim. -/
structure RsType where
  name : String
deriving DecidableEq

def RsType.fmt (t : RsType) (f : Formatter) : Formatter :=
  f.writeStr t.name

/-- Modelled from the spec: `struct.rs` is not in the provided sources; the
core consumes from a struct declaration only a pure render capability. -/
structure Struct where
  name : String
deriving DecidableEq

def Struct.new (n : String) : Struct := ⟨n⟩

/-- Modelled from the spec: render capability of a struct declaration (a pure
write of the declaration ending in a newline). -/
def Struct.fmt (v : Struct) (f : Formatter) : Formatter :=
  f.writeStr ("struct " ++ v.name ++ ";\n")

/-- Modelled from the spec: `function.rs` is not in the provided sources. -/
structure Function where
  name : String
deriving DecidableEq

def Function.new (n : String) : Function := ⟨n⟩

/-- Modelled from the spec: render capability of a function declaration.  The
boolean mirrors the `is_trait` flag `scope.rs` passes as `false`. -/
def Function.fmt (v : Function) (_isTrait : Bool) (f : Formatter) : Formatter :=
  f.writeStr ("fn " ++ v.name ++ "();\n")

/-- Modelled from the spec: `trait.rs` is not in the provided sources. -/
structure Trait where
  name : String
deriving DecidableEq

def Trait.new (n : String) : Trait := ⟨n⟩

/-- Modelled from the spec: render capability of a trait declaration. -/
def Trait.fmt (v : Trait) (f : Formatter) : Formatter :=
  f.writeStr ("trait " ++ v.name ++ ";\n")

/-- Modelled from the spec: `enum.rs` is not in the provided sources. -/
structure Enum where
  name : String
deriving DecidableEq

def Enum.new (n : String) : Enum := ⟨n⟩

/-- Modelled from the spec: render capability of an enum declaration. -/
def Enum.fmt (v : Enum) (f : Formatter) : Formatter :=
  f.writeStr ("enum " ++ v.name ++ ";\n")

/-- Modelled from the spec: `type_alias.rs` is not in the provided sources;
`scope.rs` constructs one from a name and a target. -/
structure TypeAlias where
  name : String
  target : String
deriving DecidableEq

def TypeAlias.new (n target : String) : TypeAlias := ⟨n, target⟩

/-- Modelled from the spec: render capability of a type alias. -/
def TypeAlias.fmt (v : TypeAlias) (f : Formatter) : Formatter :=
  f.writeStr ("type " ++ v.name ++ " = " ++ v.target ++ ";\n")

/-- Modelled from the spec: `field.rs` is not in the provided sources; the
fields are exactly those `impl.rs` constructs.  The source field named
after the Rust word for a verbatim annotation string is called
`annotations` here. -/
structure Field where
  name : String
  ty : RsType
  documentation : String
  annotations : List String
  value : String
  visibility : Option String
deriving DecidableEq

/-- Modelled from the spec: `bound.rs` is not in the provided sources; a
`where` bound as constructed by `impl.rs`. -/
structure Bound where
  name : String
  bound : List RsType
deriving DecidableEq

/-- Transcription of `Const` from `const.rs`. -/
structure Const where
  docs : Option Docs
  vis : String
  name : String
  ty : RsType
  value : String
deriving DecidableEq

/-- Transcription of `Const::new`. -/
def Const.new (ty : RsType) : Const :=
  { docs := none, vis := "", name := "", ty := ty, value := "" }

/-- Transcription of `Const::fmt` from `const.rs`. -/
def Const.fmt (v : Const) (f : Formatter) : Formatter :=
  let f := match v.docs with
    | some d => d.fmt f
    | none => f
  let f := if v.vis = "" then f else f.writeStr (v.vis ++ " ")
  let f := f.writeStr ("const " ++ v.name ++ ": ")
  let f := v.ty.fmt f
  f.writeStr (" = " ++ v.value ++ ";")
  |>.writeStr "\n"

/-- Transcription of `Impl` from `impl.rs`. -/
structure Impl where
  target : RsType
  generics : List String
  impl_trait : Option RsType
  assoc_csts : List Field
  assoc_tys : List Field
  bounds : List Bound
  fns : List Function
  macros : List String
deriving DecidableEq

/-- Transcription of `Impl::new`. -/
def Impl.new (target : RsType) : Impl :=
  { target := target, generics := [], impl_trait := none, assoc_csts := [],
    assoc_tys := [], bounds := [], fns := [], macros := [] }

/-- Modelled from the spec: `fmt_generics` lives in the missing
`formatter.rs`; it renders an angle-bracketed comma-joined generics list. -/
def fmt_generics (generics : List String) (f : Formatter) : Formatter :=
  if generics.isEmpty then f
  else f.writeStr ("<" ++ String.intercalate ", " generics ++ ">")

/-- Modelled from the spec: `fmt_bounds` lives in the missing `formatter.rs`;
it renders the `where` clause of the bounds list. -/
def fmt_bounds (bounds : List Bound) (f : Formatter) : Formatter :=
  if bounds.isEmpty then f
  else
    let f := f.writeStr "\nwhere\n"
    bounds.foldl (fun f b =>
      f.writeStr ("    " ++ b.name ++ ": "
        ++ String.intercalate " + " (b.bound.map RsType.name) ++ ",\n")) f

/-- Transcription of `Impl::fmt` from `impl.rs`, with the `fmt.block` call
inlined (open brace, indent, body, dedent, close brace). -/
def Impl.fmt (v : Impl) (f : Formatter) : Formatter :=
  let f := v.macros.foldl (fun f m => f.writeStr (m ++ "\n")) f
  let f := f.writeStr "impl"
  let f := fmt_generics v.generics f
  let f := match v.impl_trait with
    | some t => (((f.writeStr " ").writeStr t.name).writeStr " for")
    | none => f
  let f := f.writeStr " "
  let f := v.target.fmt f
  let f := fmt_bounds v.bounds f
  let f := f.writeStr " \x7b\n"
  let f := { f with level := f.level + 1 }
  let f := v.assoc_csts.foldl (fun f cst =>
    let f := match cst.visibility with
      | some vis => f.writeStr (vis ++ " ")
      | none => f
    let f := f.writeStr ("const " ++ cst.name ++ ": ")
    let f := cst.ty.fmt f
    f.writeStr (" = " ++ cst.value ++ ";\n")) f
  let f := v.assoc_tys.foldl (fun f ty =>
    let f := f.writeStr ("type " ++ ty.name ++ " = ")
    let f := ty.ty.fmt f
    f.writeStr ";\n") f
  let f := v.fns.enum.foldl (fun f iFn =>
    let f := if iFn.1 ≠ 0 ∨ ¬v.assoc_tys.isEmpty then f.writeStr "\n" else f
    iFn.2.fmt false f) f
  let f := { f with level := f.level - 1 }
  f.writeStr "\x7d\n"

/-!
The `Scope` / `Item` / `Module` data model, transcribed from `scope.rs`,
`item.rs` (whose variant list is visible in the exhaustive match of
`Scope::fmt`) and `module.rs`.  `Module` holds a `Scope`, so the three types
form a mutual inductive.
-/

mutual

inductive Scope where
  | mk (docs : Option Docs)
       (imports : List (String × List (String × Import)))
       (items : List Item)

inductive Item where
  | module (v : Module)
  | struct (v : Struct)
  | function (v : Function)
  | trait (v : Trait)
  | enum (v : Enum)
  | impl (v : Impl)
  | raw (v : String)
  | typeAlias (v : TypeAlias)
  | const (v : Const)

inductive Module where
  | mk (name : String) (vis : Option String) (docs : Option Docs)
       (scope : Scope) (attrs : List String)

end

def Scope.docs : Scope → Option Docs
  | .mk d _ _ => d

def Scope.imports : Scope → List (String × List (String × Import))
  | .mk _ imp _ => imp

def Scope.items : Scope → List Item
  | .mk _ _ it => it

def Scope.withImports (s : Scope) (imp : List (String × List (String × Import))) : Scope :=
  .mk s.docs imp s.items

def Scope.withItems (s : Scope) (it : List Item) : Scope :=
  .mk s.docs s.imports it

def Module.name : Module → String
  | .mk n _ _ _ _ => n

def Module.vis : Module → Option String
  | .mk _ v _ _ _ => v

def Module.docs : Module → Option Docs
  | .mk _ _ d _ _ => d

def Module.scope : Module → Scope
  | .mk _ _ _ s _ => s

def Module.attrs : Module → List String
  | .mk _ _ _ _ a => a

/-- Transcription of `Scope::new`. -/
def Scope.new : Scope := .mk none [] []

/-- Transcription of `Module::new`. -/
def Module.new (name : String) : Module := .mk name none none Scope.new []

/-- Transcription of `Scope::doc`. -/
def Scope.doc (s : Scope) (d : String) : Scope :=
  .mk (some (Docs.new d)) s.imports s.items

/-- Transcription of `Scope::raw`. -/
def Scope.raw (s : Scope) (v : String) : Scope :=
  s.withItems (s.items ++ [Item.raw v])

/-!
Association-list model of `IndexMap`: lookup and containment test find the
first occurrence of a key; `entryOrDefault` is `entry(k).or_default()`
(append `(k, d)` at the end when the key is absent, keep the map unchanged
when it is present); `updateFirst` models a mutation performed through the
`&mut` reference returned by the entry API.
-/

def containsKey (k : String) (m : List (String × β)) : Bool :=
  m.any (fun e => e.1 = k)

def lookupFirst (k : String) : List (String × β) → Option β
  | [] => none
  | e :: rest => if e.1 = k then some e.2 else lookupFirst k rest

def entryOrDefault (d : β) (k : String) (m : List (String × β)) : List (String × β) :=
  if containsKey k m then m else m ++ [(k, d)]

def updateFirst (k : String) (g : β → β) : List (String × β) → List (String × β)
  | [] => []
  | e :: rest => if e.1 = k then (e.1, g e.2) :: rest else e :: updateFirst k g rest

/-- Transcription of the key computation in `Scope::import`: the portion of
the requested type name before the first occurrence of a double colon
(Rust: `ty.split("::").next().unwrap_or(ty)`), character by character. -/
def firstSeg : List Char → List Char
  | [] => []
  | c :: rest =>
    if c = ':' ∧ rest.head? = some ':' then []
    else c :: firstSeg rest

def importKey (ty : String) : String :=
  String.mk (firstSeg ty.data)

/-- Transcription of `Scope::import` without a subsequent `.vis(..)` call:
ensure the `(path, key)` entry exists, defaulting to `Import::new`. -/
def Scope.importRaw (s : Scope) (path ty : String) : Scope :=
  let k := importKey ty
  let imp := entryOrDefault [] path s.imports
  let imp := updateFirst path (fun inner => entryOrDefault Import.new k inner) imp
  s.withImports imp

/-- Transcription of `Scope::import(path, ty).vis(v)`: ensure the entry
exists, then set its visibility through the returned reference. -/
def Scope.importVis (s : Scope) (path ty v : String) : Scope :=
  let k := importKey ty
  let s' := s.importRaw path ty
  s'.withImports (updateFirst path (updateFirst k (fun i => i.setVis v)) s'.imports)

/-- A single insertion with optional visibility: `import(path, ty)` either
alone or followed by `.vis(v)`. -/
def Scope.importWith (s : Scope) (path ty : String) : Option String → Scope
  | none => s.importRaw path ty
  | some v => s.importVis path ty v

/-!
Item management, transcribed from `scope.rs`.  A panic (the `assert!` in
`push_module`, the `unreachable!` arms of the `new_*` helpers) is modelled as
`none`.  A Rust `new_*` helper returns a `&mut` reference aliasing the just
pushed element; here it returns the new scope together with the value of that
last element.
-/

/-- Transcription of `Scope::get_module`: the first module item with the
given name.  `get_module_mut` returns a mutable reference to the same
element and needs no separate model. -/
def Scope.get_module (s : Scope) (name : String) : Option Module :=
  (s.items.filterMap (fun item =>
    match item with
    | Item.module m => if m.name = name then some m else none
    | _ => none)).head?

/-- Transcription of `Scope::push_module`; `none` models the
`assert!(self.get_module(&item.name).is_none())` panic. -/
def Scope.push_module (s : Scope) (item : Module) : Option Scope :=
  if (s.get_module item.name).isSome then none
  else some (s.withItems (s.items ++ [Item.module item]))

/-- Transcription of `Scope::new_module`: push, then return the last item. -/
def Scope.new_module (s : Scope) (name : String) : Option (Scope × Module) :=
  match s.push_module (Module.new name) with
  | none => none
  | some s' =>
    match s'.items.getLast? with
    | some (Item.module v) => some (s', v)
    | _ => none

/-- Transcription of `Scope::get_or_new_module`. -/
def Scope.get_or_new_module (s : Scope) (name : String) : Option (Scope × Module) :=
  if (s.get_module name).isSome then
    (s.get_module name).map (fun m => (s, m))
  else
    s.new_module name

/-- Transcription of `Scope::push_struct`. -/
def Scope.push_struct (s : Scope) (item : Struct) : Scope :=
  s.withItems (s.items ++ [Item.struct item])

/-- Transcription of `Scope::new_struct`. -/
def Scope.new_struct (s : Scope) (name : String) : Option (Scope × Struct) :=
  let s' := s.push_struct (Struct.new name)
  match s'.items.getLast? with
  | some (Item.struct v) => some (s', v)
  | _ => none

/-- Transcription of `Scope::push_fn`. -/
def Scope.push_fn (s : Scope) (item : Function) : Scope :=
  s.withItems (s.items ++ [Item.function item])

/-- Transcription of `Scope::new_fn`. -/
def Scope.new_fn (s : Scope) (name : String) : Option (Scope × Function) :=
  let s' := s.push_fn (Function.new name)
  match s'.items.getLast? with
  | some (Item.function v) => some (s', v)
  | _ => none

/-- Transcription of `Scope::push_trait`. -/
def Scope.push_trait (s : Scope) (item : Trait) : Scope :=
  s.withItems (s.items ++ [Item.trait item])

/-- Transcription of `Scope::new_trait`. -/
def Scope.new_trait (s : Scope) (name : String) : Option (Scope × Trait) :=
  let s' := s.push_trait (Trait.new name)
  match s'.items.getLast? with
  | some (Item.trait v) => some (s', v)
  | _ => none

/-- Transcription of `Scope::push_enum`. -/
def Scope.push_enum (s : Scope) (item : Enum) : Scope :=
  s.withItems (s.items ++ [Item.enum item])

/-- Transcription of `Scope::new_enum`. -/
def Scope.new_enum (s : Scope) (name : String) : Option (Scope × Enum) :=
  let s' := s.push_enum (Enum.new name)
  match s'.items.getLast? with
  | some (Item.enum v) => some (s', v)
  | _ => none

/-- Transcription of `Scope::push_impl`. -/
def Scope.push_impl (s : Scope) (item : Impl) : Scope :=
  s.withItems (s.items ++ [Item.impl item])

/-- Transcription of `Scope::new_impl`. -/
def Scope.new_impl (s : Scope) (target : RsType) : Option (Scope × Impl) :=
  let s' := s.push_impl (Impl.new target)
  match s'.items.getLast? with
  | some (Item.impl v) => some (s', v)
  | _ => none

/-- Transcription of `Scope::push_const`. -/
def Scope.push_const (s : Scope) (item : Const) : Scope :=
  s.withItems (s.items ++ [Item.const item])

/-- Transcription of `Scope::new_const`. -/
def Scope.new_const (s : Scope) (target : RsType) : Option (Scope × Const) :=
  let s' := s.push_const (Const.new target)
  match s'.items.getLast? with
  | some (Item.const v) => some (s', v)
  | _ => none

/-- Transcription of `Scope::push_type_alias`. -/
def Scope.push_type_alias (s : Scope) (item : TypeAlias) : Scope :=
  s.withItems (s.items ++ [Item.typeAlias item])

/-- Transcription of `Scope::new_type_alias`. -/
def Scope.new_type_alias (s : Scope) (name target : String) : Option (Scope × TypeAlias) :=
  let s' := s.push_type_alias (TypeAlias.new name target)
  match s'.items.getLast? with
  | some (Item.typeAlias v) => some (s', v)
  | _ => none

/-!
Import consolidation, transcribed from `Scope::fmt_imports`.
-/

/-- Transcription of the first loop of `fmt_imports`: collect the distinct
visibility values, in first-seen order of the table traversal (paths in
first-insertion order, type names in first-insertion order within a path). -/
def Scope.importVisibilities (s : Scope) : List (Option String) :=
  s.imports.foldl (fun acc pr =>
    pr.2.foldl (fun acc e =>
      if e.2.vis ∈ acc then acc else acc ++ [e.2.vis]) acc) []

/-- Transcription of the `tys` collection in `fmt_imports`: type names of a
path belonging to the current visibility group, in first-seen order. -/
def tysFor (vis : Option String) (row : List (String × Import)) : List String :=
  row.foldl (fun tys e => if vis = e.2.vis then tys ++ [e.1] else tys) []

/-- The text of one emitted import statement: the net effect of the chain of
writes in `fmt_imports` for a non-empty `(visibility, path)` pairing
(the brace-grouped form when more than one type name, `tys.len() == 1`
otherwise). -/
def importStmt (vis : Option String) (path : String) (tys : List String) : String :=
  (match vis with
    | some v => v ++ " "
    | none => "")
  ++ "use " ++ path ++ "::"
  ++ (if tys.length > 1 then
        "\x7b" ++ String.intercalate ", " tys ++ "\x7d;\n"
      else
        tys.headD "" ++ ";\n")

/-- Transcription of `Scope::fmt_imports`: loop over the collected
visibilities, and within each over the paths, skipping pairings with no
types and writing one statement otherwise. -/
def Scope.fmt_imports (s : Scope) (f : Formatter) : Formatter :=
  (s.importVisibilities).foldl (fun f vis =>
    s.imports.foldl (fun f pr =>
      let tys := tysFor vis pr.2
      if tys.isEmpty then f
      else f.writeStr (importStmt vis pr.1 tys)) f) f

/-!
The render entry points, transcribed from `Scope::fmt`, `Scope::to_string`
and `Module::fmt`.  `Module::fmt` calls `fmt.block`, inlined here as in
`Impl.fmt` above.
-/

mutual

/-- Transcription of `Scope::fmt`: documentation, imports, a blank separator
line when the import table is non-empty, then the items in insertion order
with one blank line between successive items. -/
def Scope.fmt : Scope → Formatter → Formatter
  | Scope.mk docs imports items, f =>
    let f := match docs with
      | some d => d.fmt f
      | none => f
    let f := Scope.fmt_imports (Scope.mk docs imports items) f
    let f := if imports.isEmpty then f else f.writeStr "\n"
    fmtItems items 0 f

/-- The item loop of `Scope::fmt` (`i` is the loop index: a blank line is
written before every item but the first). -/
def fmtItems : List Item → Nat → Formatter → Formatter
  | [], _, f => f
  | item :: rest, i, f =>
    let f := if i ≠ 0 then f.writeStr "\n" else f
    let f := Item.fmtOne item f
    fmtItems rest (i + 1) f

/-- The exhaustive match of `Scope::fmt` over the item variants.  A raw item
is written verbatim followed by a newline (`writeln!(fmt, "{}", v)`). -/
def Item.fmtOne : Item → Formatter → Formatter
  | Item.module v, f => Module.fmt v f
  | Item.struct v, f => v.fmt f
  | Item.function v, f => v.fmt false f
  | Item.trait v, f => v.fmt f
  | Item.enum v, f => v.fmt f
  | Item.impl v, f => v.fmt f
  | Item.raw v, f => f.writeStr (v ++ "\n")
  | Item.typeAlias v, f => v.fmt f
  | Item.const v, f => v.fmt f

/-- Transcription of `Module::fmt` from `module.rs`, with the `fmt.block`
call inlined. -/
def Module.fmt : Module → Formatter → Formatter
  | Module.mk name vis docs scope attrs, f =>
    let f := match docs with
      | some d => d.fmt f
      | none => f
    let f := attrs.foldl (fun f a => f.writeStr ("#[" ++ a ++ "] \n")) f
    let f := match vis with
      | some v => f.writeStr (v ++ " ")
      | none => f
    let f := f.writeStr ("mod " ++ name)
    let f := f.writeStr " \x7b\n"
    let f := { f with level := f.level + 1 }
    let f := Scope.fmt scope f
    let f := { f with level := f.level - 1 }
    f.writeStr "\x7d\n"

end

/-- Transcription of `Scope::to_string`: render into a fresh formatter and
remove the trailing newline, if any (`ret.as_bytes().last() == Some(&b'\n')`
followed by `ret.pop()`). -/
def Scope.toString (s : Scope) : String :=
  let ret := (Scope.fmt s Formatter.empty).buf
  if ret.data.getLast? = some '\n' then String.mk ret.data.dropLast else ret

/-!
Concrete scopes used by the claims.
-/

/-- The insertion sequence of C1: `("a","X",None)`, `("b","Y","pub")`,
`("a","Z",None)`. -/
def c1Scope : Scope :=
  ((Scope.new.importRaw "a" "X").importVis "b" "Y" "pub").importRaw "a" "Z"

/-- The insertion sequence of C2: `("a","X",None)`, `("b","Y","pub")`,
`("a","Z","crate")`. -/
def c2Scope : Scope :=
  ((Scope.new.importRaw "a" "X").importVis "b" "Y" "pub").importVis "a" "Z" "crate"

/-- C1: the sequence import("a","X") with no visibility, import("b","Y") with
visibility "pub", import("a","Z") with no visibility renders exactly the two
statements `use a::\x7bX, Z\x7d;` and `pub use b::Y;`, in that order, the
multi-type path using the brace-enclosed comma-joined list.  (The rendered
text of a scope with imports and no items keeps the separator newline after
the last statement.) -/
theorem c1_import_grouping_example :
    Scope.toString c1Scope = "use a::\x7bX, Z\x7d;\npub use b::Y;\n" := by
  rfl

/-- C2 counterexample: for the insertions `("a","X",None)`, `("b","Y","pub")`,
`("a","Z","crate")` the claim predicts visibility-group order None, pub,
crate; the code collects visibilities by traversing the import table
path-major, yielding None, crate, pub, so the rendered statements put the
`crate` group before the `pub` group. -/
theorem c2_chronological_order_counterexample :
    Scope.importVisibilities c2Scope = [none, some "crate", some "pub"]
      ∧ Scope.importVisibilities c2Scope ≠ [none, some "pub", some "crate"]
      ∧ Scope.toString c2Scope = "use a::X;\ncrate use a::Z;\npub use b::Y;\n"
      ∧ Scope.toString c2Scope ≠ "use a::X;\npub use b::Y;\ncrate use a::Z;\n" := by
  refine ⟨rfl, by decide, rfl, by decide⟩

/-- C4 counterexample: a scope whose only item is a raw item whose verbatim
text ends with a newline; `to_string` removes a single trailing newline from
the rendered buffer `"x\n\n"`, so the returned string still ends with a
newline character. -/
theorem c4_trailing_newline_counterexample :
    ((Scope.new.raw "x\n").toString).data.getLast? = some '\n' := by
  rfl

/-- C9 counterexample: for path `"p"`, B = `"x:"` and C = `"y"`, the type
string `"x:::y"` splits at the first `"::"` occurrence (formed by the
trailing colon of B together with the separator), keying the entry by `"x"`,
while `import("p", "x:")` keys it by `"x:"`: the two calls do not produce the
same import-table entry. -/
theorem c9_namespaced_type_counterexample :
    Scope.imports (Scope.new.importRaw "p" ("x:" ++ "::" ++ "y"))
      ≠ Scope.imports (Scope.new.importRaw "p" "x:") := by
  decide

/-!
Simple facts about the scope projections and about appending an item.
-/

@[simp]
theorem Scope.items_withItems (s : Scope) (it : List Item) : (s.withItems it).items = it := by
  cases s; rfl

@[simp]
theorem Scope.imports_withItems (s : Scope) (it : List Item) :
    (s.withItems it).imports = s.imports := by
  cases s; rfl

@[simp]
theorem Scope.docs_withItems (s : Scope) (it : List Item) :
    (s.withItems it).docs = s.docs := by
  cases s; rfl

@[simp]
theorem Scope.items_withImports (s : Scope) (imp : List (String × List (String × Import))) :
    (s.withImports imp).items = s.items := by
  cases s; rfl

@[simp]
theorem Scope.imports_withImports (s : Scope) (imp : List (String × List (String × Import))) :
    (s.withImports imp).imports = imp := by
  cases s; rfl

@[simp]
theorem Scope.docs_withImports (s : Scope) (imp : List (String × List (String × Import))) :
    (s.withImports imp).docs = s.docs := by
  cases s; rfl

theorem getLast?_append_singleton (l : List α) (a : α) : (l ++ [a]).getLast? = some a := by
  simp

/-- C3: pushing a module whose name already names a module of the scope hits
the fast-failure path (modelled as `none`), and so does `new_module`;
`get_or_new_module` with the same name never does: it returns the
already-existing module, leaving the scope unchanged (no new item). -/
theorem c3_duplicate_module_fast_failure (s : Scope) (m' m : Module)
    (h : s.get_module m'.name = some m) :
    s.push_module m' = none
      ∧ s.new_module m'.name = none
      ∧ s.get_or_new_module m'.name = some (s, m) := by
  have hname : (Module.new m'.name).name = m'.name := rfl
  refine ⟨?_, ?_, ?_⟩
  · simp [Scope.push_module, h]
  · simp [Scope.new_module, Scope.push_module, hname, h]
  · simp [Scope.get_or_new_module, h]

theorem c3_duplicate_module_fast_failure_witness :
    ((Scope.mk none [] [Item.module (Module.new "a")]).push_module (Module.new "a") = none
      ∧ (Scope.mk none [] [Item.module (Module.new "a")]).new_module "a" = none
      ∧ (Scope.mk none [] [Item.module (Module.new "a")]).get_or_new_module "a"
          = some (Scope.mk none [] [Item.module (Module.new "a")], Module.new "a")) :=
  c3_duplicate_module_fast_failure
    (Scope.mk none [] [Item.module (Module.new "a")]) (Module.new "a") (Module.new "a") rfl

/-- C10: every `new_*` helper is push-then-return-last.  For each kind, the
scope component of the helper's result is exactly the scope produced by the
corresponding `push_*` with the kind's constructor, the returned value is
that constructed element, and it is the last item of the resulting scope.
For modules this holds through the fast-failure path as well: `new_module`
fails exactly when `push_module` does. -/
theorem c10_new_helpers_push_then_last (s : Scope) (n target : String) (ty : RsType) :
    (s.new_module n = (s.push_module (Module.new n)).map (fun s' => (s', Module.new n))
      ∧ (s.push_module (Module.new n)).map (fun s' => s'.items.getLast?)
          = (s.push_module (Module.new n)).map (fun _ => some (Item.module (Module.new n))))
    ∧ (s.new_struct n = some (s.push_struct (Struct.new n), Struct.new n)
      ∧ (s.push_struct (Struct.new n)).items.getLast? = some (Item.struct (Struct.new n)))
    ∧ (s.new_fn n = some (s.push_fn (Function.new n), Function.new n)
      ∧ (s.push_fn (Function.new n)).items.getLast? = some (Item.function (Function.new n)))
    ∧ (s.new_trait n = some (s.push_trait (Trait.new n), Trait.new n)
      ∧ (s.push_trait (Trait.new n)).items.getLast? = some (Item.trait (Trait.new n)))
    ∧ (s.new_enum n = some (s.push_enum (Enum.new n), Enum.new n)
      ∧ (s.push_enum (Enum.new n)).items.getLast? = some (Item.enum (Enum.new n)))
    ∧ (s.new_impl ty = some (s.push_impl (Impl.new ty), Impl.new ty)
      ∧ (s.push_impl (Impl.new ty)).items.getLast? = some (Item.impl (Impl.new ty)))
    ∧ (s.new_const ty = some (s.push_const (Const.new ty), Const.new ty)
      ∧ (s.push_const (Const.new ty)).items.getLast? = some (Item.const (Const.new ty)))
    ∧ (s.new_type_alias n target
          = some (s.push_type_alias (TypeAlias.new n target), TypeAlias.new n target)
      ∧ (s.push_type_alias (TypeAlias.new n target)).items.getLast?
          = some (Item.typeAlias (TypeAlias.new n target))) := by
  refine ⟨⟨?_, ?_⟩, ⟨?_, ?_⟩, ⟨?_, ?_⟩, ⟨?_, ?_⟩, ⟨?_, ?_⟩, ⟨?_, ?_⟩, ⟨?_, ?_⟩, ?_, ?_⟩
  · cases h : s.push_module (Module.new n) with
    | none => simp [Scope.new_module, h]
    | some s' =>
      have hs' : s' = s.withItems (s.items ++ [Item.module (Module.new n)]) := by
        by_cases hc : (s.get_module (Module.new n).name).isSome
        · simp [Scope.push_module, hc] at h
        · simp [Scope.push_module, hc] at h
          exact h.symm
      subst hs'
      simp [Scope.new_module, h, getLast?_append_singleton]
  · cases h : s.push_module (Module.new n) with
    | none => simp
    | some s' =>
      have hs' : s' = s.withItems (s.items ++ [Item.module (Module.new n)]) := by
        by_cases hc : (s.get_module (Module.new n).name).isSome
        · simp [Scope.push_module, hc] at h
        · simp [Scope.push_module, hc] at h
          exact h.symm
      subst hs'
      simp [getLast?_append_singleton]
  · simp [Scope.new_struct, Scope.push_struct, getLast?_append_singleton]
  · simp [Scope.push_struct, getLast?_append_singleton]
  · simp [Scope.new_fn, Scope.push_fn, getLast?_append_singleton]
  · simp [Scope.push_fn, getLast?_append_singleton]
  · simp [Scope.new_trait, Scope.push_trait, getLast?_append_singleton]
  · simp [Scope.push_trait, getLast?_append_singleton]
  · simp [Scope.new_enum, Scope.push_enum, getLast?_append_singleton]
  · simp [Scope.push_enum, getLast?_append_singleton]
  · simp [Scope.new_impl, Scope.push_impl, getLast?_append_singleton]
  · simp [Scope.push_impl, getLast?_append_singleton]
  · simp [Scope.new_const, Scope.push_const, getLast?_append_singleton]
  · simp [Scope.push_const, getLast?_append_singleton]
  · simp [Scope.new_type_alias, Scope.push_type_alias, getLast?_append_singleton]
  · simp [Scope.push_type_alias, getLast?_append_singleton]

/-!
Lemmas about the association-list operations.
-/

@[simp]
theorem Scope.withImports_self (s : Scope) : s.withImports s.imports = s := by
  cases s; rfl

@[simp]
theorem Scope.withImports_withImports (s : Scope) (x y : List (String × List (String × Import))) :
    (s.withImports x).withImports y = s.withImports y := by
  cases s; rfl

theorem lookupFirst_isSome_eq_containsKey (k : String) (m : List (String × β)) :
    (lookupFirst k m).isSome = containsKey k m := by
  induction m with
  | nil => rfl
  | cons e rest ih =>
    obtain ⟨a, b⟩ := e
    by_cases h : a = k
    · simp [lookupFirst, containsKey, h]
    · simp only [containsKey, List.any_cons] at ih ⊢
      simp [lookupFirst, h, ih]

theorem containsKey_of_lookupFirst_some {k : String} {m : List (String × β)} {v : β}
    (h : lookupFirst k m = some v) : containsKey k m = true := by
  rw [← lookupFirst_isSome_eq_containsKey, h]
  rfl

theorem entryOrDefault_of_contains {k : String} {m : List (String × β)} (d : β)
    (h : containsKey k m = true) : entryOrDefault d k m = m := by
  simp [entryOrDefault, h]

@[simp]
theorem containsKey_entryOrDefault_self (d : β) (k : String) (m : List (String × β)) :
    containsKey k (entryOrDefault d k m) = true := by
  by_cases h : containsKey k m
  · simp [entryOrDefault, h]
  · simp only [entryOrDefault, h, if_false]
    simp [containsKey]

theorem updateFirst_eq_self {k : String} {m : List (String × β)} {g : β → β} {v : β}
    (hl : lookupFirst k m = some v) (hg : g v = v) : updateFirst k g m = m := by
  induction m with
  | nil => simp [lookupFirst] at hl
  | cons e rest ih =>
    obtain ⟨a, b⟩ := e
    by_cases h : a = k
    · simp only [lookupFirst, h, if_pos, Option.some.injEq] at hl
      subst hl
      simp [updateFirst, h, hg]
    · simp only [lookupFirst, h, if_neg, not_false_iff] at hl
      simp [updateFirst, h, ih hl]

theorem updateFirst_updateFirst (k : String) (f g : β → β) (m : List (String × β)) :
    updateFirst k f (updateFirst k g m) = updateFirst k (fun x => f (g x)) m := by
  induction m with
  | nil => rfl
  | cons e rest ih =>
    by_cases h : e.1 = k <;> simp [updateFirst, h, ih]

theorem lookupFirst_updateFirst_self (k : String) (g : β → β) (m : List (String × β)) :
    lookupFirst k (updateFirst k g m) = (lookupFirst k m).map g := by
  induction m with
  | nil => rfl
  | cons e rest ih =>
    by_cases h : e.1 = k <;> simp [updateFirst, lookupFirst, h, ih]

@[simp]
theorem keys_updateFirst (k : String) (g : β → β) (m : List (String × β)) :
    (updateFirst k g m).map Prod.fst = m.map Prod.fst := by
  induction m with
  | nil => rfl
  | cons e rest ih =>
    by_cases h : e.1 = k <;> simp [updateFirst, h, ih]

@[simp]
theorem containsKey_updateFirst (k k' : String) (g : β → β) (m : List (String × β)) :
    containsKey k' (updateFirst k g m) = containsKey k' m := by
  induction m with
  | nil => rfl
  | cons e rest ih =>
    obtain ⟨a, b⟩ := e
    by_cases h : a = k
    · subst h
      simp [updateFirst, containsKey]
    · simp only [containsKey, List.any_cons] at ih ⊢
      simp [updateFirst, h, ih]

theorem lookupFirst_entryOrDefault_of_not_contains {k : String} {m : List (String × β)} (d : β)
    (h : ¬containsKey k m = true) :
    lookupFirst k (entryOrDefault d k m) = some d := by
  simp only [entryOrDefault, h, if_false]
  induction m with
  | nil => simp [lookupFirst]
  | cons e rest ih =>
    simp [containsKey] at h
    simp [lookupFirst, h.1, Ne.symm]
    · exact ih (by simp [containsKey, h.2])

/-- The two-level lookup of the import table: the `Import` stored for a
`(path, type name)` pair, if any. -/
def lookup2 (m : List (String × List (String × Import))) (p k : String) : Option Import :=
  (lookupFirst p m).bind (lookupFirst k)

/-- The imports of `importVis` expressed through a single outer update of the
table ensured by `importRaw`. -/
theorem importVis_eq (s : Scope) (p t v : String) :
    s.importVis p t v = s.withImports
      (updateFirst p (updateFirst (importKey t) (fun i => i.setVis v))
        (Scope.imports (s.importRaw p t))) := by
  cases s
  rfl

/-- The flattened `(path, type name)` pair list of an import table, in
traversal order. -/
def pairList (m : List (String × List (String × Import))) : List (String × String) :=
  (m.map (fun pr => pr.2.map (fun e => (pr.1, e.1)))).flatten

/-- Well-formedness that the `entry(..).or_default()` construction maintains:
the outer keys and each row's inner keys are duplicate-free. -/
def TableWF (m : List (String × List (String × Import))) : Prop :=
  (m.map Prod.fst).Nodup ∧ ∀ pr ∈ m, (pr.2.map Prod.fst).Nodup

theorem mem_keys_iff_containsKey (k : String) (m : List (String × β)) :
    k ∈ m.map Prod.fst ↔ containsKey k m = true := by
  rw [containsKey, List.any_eq_true]
  constructor
  · intro h
    obtain ⟨e, he, heq⟩ := List.mem_map.mp h
    exact ⟨e, he, by simp [heq]⟩
  · rintro ⟨e, he, heq⟩
    rw [decide_eq_true_eq] at heq
    exact List.mem_map.mpr ⟨e, he, heq⟩

theorem mem_updateFirst {pr : String × β} {k : String} {g : β → β} {m : List (String × β)}
    (h : pr ∈ updateFirst k g m) : pr ∈ m ∨ ∃ q ∈ m, pr = (q.1, g q.2) := by
  induction m with
  | nil => simp [updateFirst] at h
  | cons e rest ih =>
    by_cases he : e.1 = k
    · simp only [updateFirst, he, if_pos, List.mem_cons] at h
      rcases h with h | h
      · exact Or.inr ⟨e, List.mem_cons_self _ _, by rw [he]; exact h⟩
      · exact Or.inl (List.mem_cons_of_mem _ h)
    · simp only [updateFirst, he, if_neg, not_false_iff, List.mem_cons] at h
      rcases h with h | h
      · exact Or.inl (by simp [h])
      · rcases ih h with h' | ⟨q, hq, hpr⟩
        · exact Or.inl (List.mem_cons_of_mem _ h')
        · exact Or.inr ⟨q, List.mem_cons_of_mem _ hq, hpr⟩

theorem keys_nodup_entryOrDefault {row : List (String × β)} {k : String} (d : β)
    (h : (row.map Prod.fst).Nodup) : ((entryOrDefault d k row).map Prod.fst).Nodup := by
  by_cases hc : containsKey k row
  · rwa [entryOrDefault_of_contains _ hc]
  · unfold entryOrDefault
    rw [if_neg hc, List.map_append, List.map_singleton]
    refine List.Nodup.append h (List.nodup_singleton k) ?_
    intro x hx hxk
    rw [List.mem_singleton] at hxk
    subst hxk
    exact hc ((mem_keys_iff_containsKey _ _).mp hx)

theorem tableWF_updateFirst {m : List (String × List (String × Import))} {k : String}
    {g : List (String × Import) → List (String × Import)}
    (hg : ∀ row, (row.map Prod.fst).Nodup → ((g row).map Prod.fst).Nodup)
    (h : TableWF m) : TableWF (updateFirst k g m) := by
  obtain ⟨hkeys, hrows⟩ := h
  refine ⟨by rwa [keys_updateFirst], ?_⟩
  intro pr hpr
  rcases mem_updateFirst hpr with h' | ⟨q, hq, rfl⟩
  · exact hrows pr h'
  · exact hg q.2 (hrows q hq)

theorem tableWF_entryOrDefault {m : List (String × List (String × Import))} {p : String}
    (h : TableWF m) : TableWF (entryOrDefault [] p m) := by
  obtain ⟨hkeys, hrows⟩ := h
  by_cases hc : containsKey p m
  · rw [entryOrDefault_of_contains _ hc]
    exact ⟨hkeys, hrows⟩
  · constructor
    · unfold entryOrDefault
      rw [if_neg hc, List.map_append, List.map_singleton]
      refine List.Nodup.append hkeys (List.nodup_singleton p) ?_
      intro x hx hxp
      rw [List.mem_singleton] at hxp
      subst hxp
      exact hc ((mem_keys_iff_containsKey _ _).mp hx)
    · intro pr hpr
      unfold entryOrDefault at hpr
      rw [if_neg hc, List.mem_append, List.mem_singleton] at hpr
      rcases hpr with hpr | hpr
      · exact hrows pr hpr
      · simp [hpr]

theorem pairList_cons (a : String) (inner : List (String × Import))
    (rest : List (String × List (String × Import))) :
    pairList ((a, inner) :: rest) = inner.map (fun e => (a, e.1)) ++ pairList rest := by
  simp [pairList]

theorem fst_mem_of_mem_pairList {a b : String} {m : List (String × List (String × Import))}
    (h : (a, b) ∈ pairList m) : a ∈ m.map Prod.fst := by
  induction m with
  | nil => simp [pairList] at h
  | cons pr rest ih =>
    obtain ⟨p0, inner⟩ := pr
    rw [pairList_cons] at h
    rcases List.mem_append.mp h with h | h
    · obtain ⟨e, _, heq⟩ := List.mem_map.mp h
      have h1 : p0 = a := congrArg Prod.fst heq
      simp [← h1]
    · exact List.mem_cons_of_mem _ (ih h)

theorem pairList_nodup {m : List (String × List (String × Import))} (h : TableWF m) :
    (pairList m).Nodup := by
  induction m with
  | nil => simp [pairList]
  | cons pr rest ih =>
    obtain ⟨p0, inner⟩ := pr
    obtain ⟨hkeys, hrows⟩ := h
    rw [List.map_cons, List.nodup_cons] at hkeys
    rw [pairList_cons]
    refine List.Nodup.append ?_
      (ih ⟨hkeys.2, fun q hq => hrows q (List.mem_cons_of_mem _ hq)⟩) ?_
    · have hinner : (inner.map Prod.fst).Nodup := hrows (p0, inner) (List.mem_cons_self _ _)
      have hmap : inner.map (fun e => (p0, e.1))
          = (inner.map Prod.fst).map (fun k0 => (p0, k0)) := by
        rw [List.map_map]
        rfl
      rw [hmap]
      exact hinner.map (fun x y hxy => congrArg Prod.snd hxy)
    · intro x hx1 hx2
      obtain ⟨e, _, rfl⟩ := List.mem_map.mp hx1
      exact hkeys.1 (fst_mem_of_mem_pairList hx2)

theorem mem_pairList_of_lookup2 {m : List (String × List (String × Import))} {p k : String}
    {i : Import} (h : lookup2 m p k = some i) : (p, k) ∈ pairList m := by
  induction m with
  | nil => simp [lookup2, lookupFirst] at h
  | cons pr rest ih =>
    obtain ⟨a, row⟩ := pr
    obtain ⟨inner, hp, hk⟩ := Option.bind_eq_some.mp h
    have hkmem : k ∈ inner.map Prod.fst := by
      rw [mem_keys_iff_containsKey]
      exact containsKey_of_lookupFirst_some hk
    by_cases he : a = p
    · subst he
      simp only [lookupFirst, if_pos, Option.some.injEq] at hp
      subst hp
      rw [pairList_cons]
      refine List.mem_append.mpr (Or.inl ?_)
      obtain ⟨e, he', rfl⟩ := List.mem_map.mp hkmem
      exact List.mem_map.mpr ⟨e, he', rfl⟩
    · simp only [lookupFirst, he, if_neg, not_false_iff] at hp
      rw [pairList_cons]
      refine List.mem_append.mpr (Or.inr (ih ?_))
      unfold lookup2
      rw [hp]
      exact hk

/-- After `importRaw`, the path row exists and contains the key. -/
theorem importRaw_lookup (s : Scope) (p t : String) :
    ∃ row, lookupFirst p (Scope.imports (s.importRaw p t)) = some row
      ∧ containsKey (importKey t) row = true := by
  have hcpm : containsKey p (entryOrDefault [] p s.imports) = true :=
    containsKey_entryOrDefault_self _ _ _
  obtain ⟨inner', hinner'⟩ : ∃ i, lookupFirst p (entryOrDefault [] p s.imports) = some i := by
    rw [← Option.isSome_iff_exists, lookupFirst_isSome_eq_containsKey]
    exact hcpm
  refine ⟨entryOrDefault Import.new (importKey t) inner', ?_,
    containsKey_entryOrDefault_self _ _ _⟩
  have hrw : Scope.imports (s.importRaw p t)
      = updateFirst p (fun inner => entryOrDefault Import.new (importKey t) inner)
          (entryOrDefault [] p s.imports) := by
    cases s
    rfl
  rw [hrw, lookupFirst_updateFirst_self, hinner']
  rfl

/-- `importRaw` on a scope whose table already holds the `(path, key)` entry
is the identity. -/
theorem importRaw_of_present {s : Scope} {p t : String} {row : List (String × Import)}
    (hp : lookupFirst p s.imports = some row)
    (hck : containsKey (importKey t) row = true) : s.importRaw p t = s := by
  have h2 : updateFirst p (fun inner => entryOrDefault Import.new (importKey t) inner)
      s.imports = s.imports :=
    updateFirst_eq_self hp (entryOrDefault_of_contains _ hck)
  unfold Scope.importRaw
  show s.withImports
    (updateFirst p (fun inner => entryOrDefault Import.new (importKey t) inner)
      (entryOrDefault [] p s.imports)) = s
  rw [entryOrDefault_of_contains _ (containsKey_of_lookupFirst_some hp), h2,
    Scope.withImports_self]

/-- Setting the visibility of the same pair twice keeps one update: the
second `importVis` on the same `(path, type)` overwrites the first. -/
theorem importVis_importVis (s : Scope) (p t v1 v2 : String) :
    (s.importVis p t v1).importVis p t v2 = s.importVis p t v2 := by
  obtain ⟨row, hp, hck⟩ := importRaw_lookup s p t
  have hp1 : lookupFirst p (Scope.imports (s.importVis p t v1))
      = some (updateFirst (importKey t) (fun i => i.setVis v1) row) := by
    rw [importVis_eq, Scope.imports_withImports, lookupFirst_updateFirst_self, hp]
    rfl
  have hck1 : containsKey (importKey t)
      (updateFirst (importKey t) (fun i => i.setVis v1) row) = true := by
    rw [containsKey_updateFirst]
    exact hck
  have hraw1 : (s.importVis p t v1).importRaw p t = s.importVis p t v1 :=
    importRaw_of_present hp1 hck1
  calc (s.importVis p t v1).importVis p t v2
      = (s.importVis p t v1).withImports
          (updateFirst p (updateFirst (importKey t) (fun i => i.setVis v2))
            (Scope.imports ((s.importVis p t v1).importRaw p t))) :=
        importVis_eq _ p t v2
    _ = s.withImports
          (updateFirst p (updateFirst (importKey t) (fun i => i.setVis v2))
            (updateFirst p (updateFirst (importKey t) (fun i => i.setVis v1))
              (Scope.imports (s.importRaw p t)))) := by
        rw [hraw1, importVis_eq s p t v1]
        simp
    _ = s.withImports
          (updateFirst p (updateFirst (importKey t) (fun i => i.setVis v2))
            (Scope.imports (s.importRaw p t))) := by
        have hfg : (fun x : List (String × Import) =>
              updateFirst (importKey t) (fun i => i.setVis v2)
                (updateFirst (importKey t) (fun i => i.setVis v1) x))
            = updateFirst (importKey t) (fun i => i.setVis v2) := by
          funext x
          rw [updateFirst_updateFirst]
          rfl
        rw [updateFirst_updateFirst, hfg]
    _ = s.importVis p t v2 := (importVis_eq s p t v2).symm

/-- After `importVis`, the pair's stored visibility is the one just set. -/
theorem importVis_lookup2 (s : Scope) (p t v : String) :
    lookup2 (Scope.imports (s.importVis p t v)) p (importKey t) = some ⟨some v⟩ := by
  obtain ⟨row, hp, hck⟩ := importRaw_lookup s p t
  obtain ⟨i0, hi0⟩ : ∃ i, lookupFirst (importKey t) row = some i := by
    rw [← Option.isSome_iff_exists, lookupFirst_isSome_eq_containsKey]
    exact hck
  rw [importVis_eq, Scope.imports_withImports]
  unfold lookup2
  rw [lookupFirst_updateFirst_self, hp]
  show lookupFirst (importKey t) (updateFirst (importKey t) (fun i => i.setVis v) row)
    = some ⟨some v⟩
  rw [lookupFirst_updateFirst_self, hi0]
  rfl

/-- `importVis` preserves table well-formedness. -/
theorem importVis_tableWF (s : Scope) (p t v : String) (hwf : TableWF s.imports) :
    TableWF (Scope.imports (s.importVis p t v)) := by
  rw [importVis_eq, Scope.imports_withImports]
  have h1 : TableWF (entryOrDefault [] p s.imports) := tableWF_entryOrDefault hwf
  have h2 : TableWF (Scope.imports (s.importRaw p t)) := by
    have hrw : Scope.imports (s.importRaw p t)
        = updateFirst p (fun inner => entryOrDefault Import.new (importKey t) inner)
            (entryOrDefault [] p s.imports) := by
      cases s
      rfl
    rw [hrw]
    exact tableWF_updateFirst (fun row h => keys_nodup_entryOrDefault _ h) h1
  exact tableWF_updateFirst (fun row h => by rwa [keys_updateFirst]) h2

theorem countP_eq_one_of_nodup_mem [DecidableEq α] {l : List α} {a : α}
    (hn : l.Nodup) (ha : a ∈ l) : l.countP (fun q => q = a) = 1 := by
  induction l with
  | nil => simp at ha
  | cons b rest ih =>
    rw [List.nodup_cons] at hn
    by_cases hba : b = a
    · rw [List.countP_cons_of_pos _ _ (by simp [hba])]
      have hz : rest.countP (fun q => decide (q = a)) = 0 := by
        rw [List.countP_eq_zero]
        intro q hq
        simp only [decide_eq_true_eq]
        rintro rfl
        exact hn.1 (hba ▸ hq)
      rw [hz]
    · rw [List.countP_cons_of_neg _ _ (by simpa using hba)]
      have ha' : a ∈ rest := by
        rcases List.mem_cons.mp ha with h | h
        · exact absurd h.symm hba
        · exact h
      exact ih hn.2 ha'

/-- C5: inserting the same `(path, type)` pair twice where each insertion
sets a visibility leaves the scope in exactly the state of a single insertion
with the later visibility (so the rendered output has one statement for the
pair, not duplicates); the stored visibility for the pair is the later one;
and, for a well-formed table (as the entry API maintains), the flattened
table holds exactly one entry for the pair. -/
theorem c5_last_write_wins (s : Scope) (p t v1 v2 : String) (hwf : TableWF s.imports) :
    (s.importVis p t v1).importVis p t v2 = s.importVis p t v2
      ∧ lookup2 (Scope.imports ((s.importVis p t v1).importVis p t v2)) p (importKey t)
          = some ⟨some v2⟩
      ∧ (pairList (Scope.imports ((s.importVis p t v1).importVis p t v2))).countP
          (fun q => q = (p, importKey t)) = 1 := by
  have heq := importVis_importVis s p t v1 v2
  have hlk : lookup2 (Scope.imports ((s.importVis p t v1).importVis p t v2)) p (importKey t)
      = some ⟨some v2⟩ := by
    rw [heq]
    exact importVis_lookup2 s p t v2
  have hwf2 : TableWF (Scope.imports ((s.importVis p t v1).importVis p t v2)) := by
    rw [heq]
    exact importVis_tableWF s p t v2 hwf
  exact ⟨heq, hlk,
    countP_eq_one_of_nodup_mem (pairList_nodup hwf2) (mem_pairList_of_lookup2 hlk)⟩

theorem c5_last_write_wins_witness :
    ((Scope.new.importVis "p" "T" "a").importVis "p" "T" "b"
        = Scope.new.importVis "p" "T" "b")
      ∧ lookup2 (Scope.imports ((Scope.new.importVis "p" "T" "a").importVis "p" "T" "b"))
          "p" (importKey "T") = some ⟨some "b"⟩
      ∧ (pairList (Scope.imports ((Scope.new.importVis "p" "T" "a").importVis "p" "T" "b"))).countP
          (fun q => q = ("p", importKey "T")) = 1 :=
  c5_last_write_wins Scope.new "p" "T" "a" "b"
    ⟨List.nodup_nil, fun pr h => absurd h (List.not_mem_nil pr)⟩

/-- C6: re-inserting a `(path, type, visibility)` triple that is already
present in the import table (the stored visibility for the pair is exactly
the triple's) leaves the scope, and hence the rendered output of
`Scope.to_string`, unchanged. -/
theorem c6_reinsert_idempotent (s : Scope) (p t : String) (v : Option String)
    (h : lookup2 s.imports p (importKey t) = some ⟨v⟩) :
    s.importWith p t v = s ∧ (s.importWith p t v).toString = s.toString := by
  obtain ⟨inner, hp, hk⟩ := Option.bind_eq_some.mp h
  have hcp : containsKey p s.imports = true := containsKey_of_lookupFirst_some hp
  have hck : containsKey (importKey t) inner = true := containsKey_of_lookupFirst_some hk
  have hraw : s.importRaw p t = s := by
    have h2 : updateFirst p (fun inner => entryOrDefault Import.new (importKey t) inner)
        s.imports = s.imports :=
      updateFirst_eq_self hp (entryOrDefault_of_contains _ hck)
    unfold Scope.importRaw
    show s.withImports
      (updateFirst p (fun inner => entryOrDefault Import.new (importKey t) inner)
        (entryOrDefault [] p s.imports)) = s
    rw [entryOrDefault_of_contains _ hcp, h2, Scope.withImports_self]
  have hmain : s.importWith p t v = s := by
    cases v with
    | none => exact hraw
    | some v' =>
      show s.importVis p t v' = s
      rw [importVis_eq, hraw]
      have hinner : updateFirst (importKey t) (fun i => i.setVis v') inner = inner :=
        updateFirst_eq_self hk rfl
      rw [updateFirst_eq_self hp hinner, Scope.withImports_self]
  exact ⟨hmain, congrArg Scope.toString hmain⟩

theorem c6_reinsert_idempotent_witness :
    ((Scope.new.importVis "p" "T" "pub").importWith "p" "T" (some "pub")
        = Scope.new.importVis "p" "T" "pub")
      ∧ ((Scope.new.importVis "p" "T" "pub").importWith "p" "T" (some "pub")).toString
        = (Scope.new.importVis "p" "T" "pub").toString :=
  c6_reinsert_idempotent (Scope.new.importVis "p" "T" "pub") "p" "T" (some "pub") rfl

/-!
The first-seen order of the visibility groups (C2).
-/

/-- Spec-side description of first-seen deduplication: keep each value's
first occurrence, drop every later duplicate. -/
def firstSeen : List (Option String) → List (Option String)
  | [] => []
  | v :: rest => v :: firstSeen (rest.filter (fun w => w ≠ v))
termination_by l => l.length
decreasing_by
  simp only [List.length_cons]
  exact Nat.lt_succ_of_le (List.length_filter_le _ _)

/-- The visibility of every entry of the import table, in traversal order:
paths in first-insertion order and, within a path, type names in
first-insertion order. -/
def entryVisList (s : Scope) : List (Option String) :=
  (s.imports.map (fun pr => pr.2.map (fun e => e.2.vis))).flatten

theorem foldl_dedup_eq_firstSeen (l : List (Option String)) :
    ∀ acc, l.foldl (fun acc v => if v ∈ acc then acc else acc ++ [v]) acc
      = acc ++ firstSeen (l.filter (fun v => v ∉ acc)) := by
  induction l with
  | nil =>
    intro acc
    simp [firstSeen]
  | cons v rest ih =>
    intro acc
    rw [List.foldl_cons, List.filter_cons]
    by_cases hv : v ∈ acc
    · have hd : (decide (v ∉ acc)) = false := by simp [hv]
      rw [if_pos hv, hd]
      simp only [Bool.false_eq_true, if_false]
      exact ih acc
    · have hd : (decide (v ∉ acc)) = true := by simp [hv]
      rw [if_neg hv, hd]
      simp only [if_true]
      rw [ih (acc ++ [v]), firstSeen, List.append_assoc, List.singleton_append]
      congr 2
      rw [List.filter_filter]
      congr 1
      apply List.filter_congr
      intro x _
      simp only [List.mem_append, not_or, List.mem_singleton, decide_not, Bool.decide_and]
      exact Bool.and_comm _ _

/-- The visibility list `fmt_imports` computes is the first-seen
deduplication of the entry visibilities in table-traversal order. -/
theorem importVisibilities_eq_firstSeen (s : Scope) :
    Scope.importVisibilities s = firstSeen (entryVisList s) := by
  have hfilter : (entryVisList s).filter (fun v => v ∉ ([] : List (Option String)))
      = entryVisList s := by
    apply List.filter_eq_self.mpr
    intro a _
    simp
  have hmain := foldl_dedup_eq_firstSeen (entryVisList s) []
  rw [hfilter, List.nil_append] at hmain
  rw [← hmain]
  unfold entryVisList Scope.importVisibilities
  rw [List.foldl_flatten, List.foldl_map]
  have hfg : (fun (b : List (Option String)) (pr : String × List (String × Import)) =>
        (pr.2.map (fun e => e.2.vis)).foldl
          (fun acc v => if v ∈ acc then acc else acc ++ [v]) b)
      = (fun b pr => pr.2.foldl
          (fun acc e => if e.2.vis ∈ acc then acc else acc ++ [e.2.vis]) b) := by
    funext b pr
    rw [List.foldl_map]
  rw [hfg]

/-- C2 (amended): the visibility groups of the rendered import output appear
in the order in which each distinct visibility value is first encountered
while traversing the import table (paths in first-insertion order, type names
in first-insertion order within a path) — first-seen deduplication of the
entry visibilities in table-traversal order, not in chronological insertion
order across paths. -/
theorem c2_visibility_groups_first_seen_in_table_order (s : Scope) :
    Scope.importVisibilities s = firstSeen (entryVisList s) :=
  importVisibilities_eq_firstSeen s

/-!
The key computation of `Scope::import` (C9).
-/

/-- Splicing lemma for the key computation: when B holds no double colon
(`firstSeg` keeps it whole) and does not end in a colon, the first double
colon of `B ++ "::" ++ C` is the appended separator. -/
theorem firstSeg_cons (c : Char) (l : List Char) :
    firstSeg (c :: l) = if c = ':' ∧ l.head? = some ':' then [] else c :: firstSeg l := rfl

theorem firstSeg_splice (C : List Char) :
    ∀ B : List Char, firstSeg B = B → B.getLast? ≠ some ':' →
      firstSeg (B ++ ':' :: ':' :: C) = B := by
  intro B
  induction B with
  | nil =>
    intro _ _
    simp [firstSeg]
  | cons c rest ih =>
    intro hB hlast
    have h0 : ¬(c = ':' ∧ rest.head? = some ':') := by
      intro hc
      simp only [firstSeg, if_pos hc] at hB
      exact (List.cons_ne_nil c rest) hB.symm
    have h1 : firstSeg rest = rest := by
      simp only [firstSeg, if_neg h0] at hB
      exact (List.cons.injEq _ _ _ _ ▸ hB).2
    cases rest with
    | nil =>
      have hc : c ≠ ':' := by
        intro hcc
        exact hlast (by simp [hcc])
      show firstSeg (c :: ':' :: ':' :: C) = [c]
      simp [firstSeg, hc]
    | cons d rest' =>
      have hlast' : (d :: rest').getLast? ≠ some ':' := by
        rwa [List.getLast?_cons_cons] at hlast
      have hrec := ih h1 hlast'
      show firstSeg (c :: ((d :: rest') ++ ':' :: ':' :: C)) = c :: d :: rest'
      have h0' : ¬(c = ':' ∧ ((d :: rest') ++ ':' :: ':' :: C).head? = some ':') := by
        simpa using h0
      rw [firstSeg_cons, if_neg h0', hrec]

/-- The key of `B ++ "::" ++ C` is B, when B holds no double colon and does
not end in a colon. -/
theorem importKey_splice (B C : String) (h1 : importKey B = B)
    (h2 : B.data.getLast? ≠ some ':') : importKey (B ++ "::" ++ C) = B := by
  have hdata : (B ++ "::" ++ C).data = B.data ++ ':' :: ':' :: C.data := by
    simp [String.data_append]
  have h1' : firstSeg B.data = B.data := by
    have := congrArg String.data h1
    simpa [importKey] using this
  unfold importKey
  rw [hdata, firstSeg_splice C.data B.data h1' h2]

/-- C9 (amended): for every path p and strings B, C where B contains no
double colon (equivalently, the key of B is B itself) and does not end with a
colon, `import(p, "B::C")` targets exactly the same import-table entry as
`import(p, "B")`: the two calls key the entry by B, so the resulting scopes
are equal — with or without a subsequent visibility set — and the rendered
statement names the type B, never `B::C`. -/
theorem c9_import_splits_on_double_colon (s : Scope) (p B C : String)
    (h1 : importKey B = B) (h2 : B.data.getLast? ≠ some ':') :
    importKey (B ++ "::" ++ C) = B
      ∧ s.importRaw p (B ++ "::" ++ C) = s.importRaw p B
      ∧ ∀ v, s.importVis p (B ++ "::" ++ C) v = s.importVis p B v := by
  have hkey : importKey (B ++ "::" ++ C) = B := importKey_splice B C h1 h2
  refine ⟨hkey, ?_, ?_⟩
  · unfold Scope.importRaw
    rw [hkey, h1]
  · intro v
    unfold Scope.importVis Scope.importRaw
    rw [hkey, h1]

theorem c9_import_splits_on_double_colon_witness :
    importKey ("B" ++ "::" ++ "C") = "B"
      ∧ Scope.new.importRaw "p" ("B" ++ "::" ++ "C") = Scope.new.importRaw "p" "B"
      ∧ ∀ v, Scope.new.importVis "p" ("B" ++ "::" ++ "C") v
          = Scope.new.importVis "p" "B" v :=
  c9_import_splits_on_double_colon Scope.new "p" "B" "C" rfl (by decide)

/-- C4 (amended): `Scope::to_string` trims exactly one trailing newline: for
every scope whose rendered buffer does not end in two consecutive newline
characters, the returned string does not end with a newline.  (When the last
item is a Raw item whose verbatim text itself ends with a newline — or when
the scope has imports but no items — the buffer ends in two newlines and the
returned string keeps one of them.) -/
theorem c4_single_trailing_newline_trimmed (s : Scope)
    (h : ¬((Scope.fmt s Formatter.empty).buf.data.getLast? = some '\n'
        ∧ (Scope.fmt s Formatter.empty).buf.data.dropLast.getLast? = some '\n')) :
    ¬(Scope.toString s).data.getLast? = some '\n' := by
  show ¬(if (Scope.fmt s Formatter.empty).buf.data.getLast? = some '\n'
      then String.mk (Scope.fmt s Formatter.empty).buf.data.dropLast
      else (Scope.fmt s Formatter.empty).buf).data.getLast? = some '\n'
  by_cases hl : (Scope.fmt s Formatter.empty).buf.data.getLast? = some '\n'
  · rw [if_pos hl]
    intro hcon
    exact h ⟨hl, hcon⟩
  · rw [if_neg hl]
    exact hl

theorem c4_single_trailing_newline_trimmed_witness :
    ¬(Scope.toString (Scope.new.raw "x")).data.getLast? = some '\n' :=
  c4_single_trailing_newline_trimmed (Scope.new.raw "x") (by decide)

/-!
The emitted import statements as a list (C7).
-/

/-- The statements `fmt_imports` emits for one visibility group, in path
order: one statement per path whose type list for the group is non-empty. -/
def visLines (s : Scope) (vis : Option String) : List String :=
  s.imports.filterMap (fun pr =>
    let tys := tysFor vis pr.2
    if tys.isEmpty then none else some (importStmt vis pr.1 tys))

/-- Every statement `fmt_imports` emits, in emission order. -/
def importLines (s : Scope) : List String :=
  ((Scope.importVisibilities s).map (visLines s)).flatten

def concatAll : List String → String
  | [] => ""
  | a :: rest => a ++ concatAll rest

theorem string_append_assoc (a b c : String) : a ++ b ++ c = a ++ (b ++ c) := by
  cases a
  cases b
  cases c
  exact congrArg String.mk (List.append_assoc _ _ _)

theorem concatAll_append (l1 l2 : List String) :
    concatAll (l1 ++ l2) = concatAll l1 ++ concatAll l2 := by
  induction l1 with
  | nil =>
    show concatAll l2 = "" ++ concatAll l2
    cases hc : concatAll l2
    rfl
  | cons a rest ih =>
    show a ++ concatAll (rest ++ l2) = a ++ concatAll rest ++ concatAll l2
    rw [ih, string_append_assoc]

theorem Formatter.writeStr_append (f : Formatter) (a b : String) :
    (f.writeStr a).writeStr b = f.writeStr (a ++ b) := by
  unfold Formatter.writeStr
  have hd : (a ++ b).data = a.data ++ b.data := by
    cases a
    cases b
    rfl
  rw [hd, List.foldl_append]

/-- The per-visibility emission loop of `fmt_imports` writes exactly the
concatenation of that group's statements. -/
theorem foldl_visLines (vis : Option String) (rows : List (String × List (String × Import))) :
    ∀ f : Formatter,
      rows.foldl (fun f pr =>
        let tys := tysFor vis pr.2
        if tys.isEmpty then f else f.writeStr (importStmt vis pr.1 tys)) f
      = f.writeStr (concatAll (rows.filterMap (fun pr =>
          let tys := tysFor vis pr.2
          if tys.isEmpty then none else some (importStmt vis pr.1 tys)))) := by
  induction rows with
  | nil =>
    intro f
    rfl
  | cons pr rest ih =>
    intro f
    rw [List.foldl_cons, List.filterMap_cons]
    by_cases htys : (tysFor vis pr.2).isEmpty
    · simp only [htys, if_pos]
      exact ih f
    · simp only [htys, Bool.false_eq_true, if_false]
      rw [ih (f.writeStr (importStmt vis pr.1 (tysFor vis pr.2)))]
      rw [Formatter.writeStr_append]
      rfl

/-- `fmt_imports` writes exactly the concatenation of the emitted
statements. -/
theorem fmt_imports_eq_writeStr (s : Scope) (f : Formatter) :
    Scope.fmt_imports s f = f.writeStr (concatAll (importLines s)) := by
  unfold Scope.fmt_imports importLines
  generalize Scope.importVisibilities s = vl
  induction vl generalizing f with
  | nil => rfl
  | cons v rest ih =>
    rw [List.foldl_cons, List.map_cons, List.flatten_cons]
    rw [foldl_visLines v s.imports f]
    have hv : (List.filterMap (fun pr =>
        let tys := tysFor v pr.2
        if tys.isEmpty then none else some (importStmt v pr.1 tys)) s.imports)
        = visLines s v := rfl
    rw [hv]
    rw [ih (f.writeStr (concatAll (visLines s v)))]
    rw [Formatter.writeStr_append]
    rw [concatAll_append]

/-- `tysFor` as a filterMap: the type names of the row whose import has the
given visibility. -/
theorem tysFor_eq (vis : Option String) (row : List (String × Import)) :
    tysFor vis row
      = row.filterMap (fun e => if vis = e.2.vis then some e.1 else none) := by
  suffices h : ∀ acc, row.foldl
      (fun tys e => if vis = e.2.vis then tys ++ [e.1] else tys) acc
      = acc ++ row.filterMap (fun e => if vis = e.2.vis then some e.1 else none) by
    simpa [tysFor] using h []
  induction row with
  | nil =>
    intro acc
    simp
  | cons e rest ih =>
    intro acc
    rw [List.foldl_cons, List.filterMap_cons]
    by_cases he : vis = e.2.vis
    · rw [if_pos he, if_pos he, ih (acc ++ [e.1]), List.append_assoc, List.singleton_append]
    · rw [if_neg he, if_neg he, ih acc]

theorem firstSeen_cons (v : Option String) (rest : List (Option String)) :
    firstSeen (v :: rest) = v :: firstSeen (rest.filter (fun w => w ≠ v)) := by
  rw [firstSeen]

/-- A table whose first path row has a first entry emits at least one
statement. -/
theorem importLines_ne_nil {s : Scope} {p0 : String} {e : String × Import}
    {es : List (String × Import)} {rest : List (String × List (String × Import))}
    (him : Scope.imports s = (p0, e :: es) :: rest) : importLines s ≠ [] := by
  obtain ⟨vs, hvs⟩ : ∃ vs, Scope.importVisibilities s = e.2.vis :: vs := by
    rw [importVisibilities_eq_firstSeen]
    unfold entryVisList
    rw [him, List.map_cons, List.flatten_cons, List.map_cons, List.cons_append, firstSeen_cons]
    exact ⟨_, rfl⟩
  have htys : ¬(tysFor e.2.vis (e :: es)).isEmpty = true := by
    rw [tysFor_eq, List.filterMap_cons, if_pos rfl]
    simp
  obtain ⟨l, hvl⟩ : ∃ l, visLines s e.2.vis
      = importStmt e.2.vis p0 (tysFor e.2.vis (e :: es)) :: l := by
    unfold visLines
    rw [him, List.filterMap_cons]
    have happ : (let tys := tysFor e.2.vis (p0, e :: es).2
          if tys.isEmpty then none else some (importStmt e.2.vis (p0, e :: es).1 tys))
        = some (importStmt e.2.vis p0 (tysFor e.2.vis (e :: es))) := by
      show (if (tysFor e.2.vis (e :: es)).isEmpty then none
        else some (importStmt e.2.vis p0 (tysFor e.2.vis (e :: es)))) = _
      rw [if_neg htys]
    rw [happ]
    exact ⟨_, rfl⟩
  unfold importLines
  rw [hvs, List.map_cons, List.flatten_cons, hvl]
  simp

/-- C7: `Scope::fmt` emits the blank separator line exactly when the import
table is non-empty (`if !self.imports.is_empty()` in the transcription of
`Scope.fmt`); under the invariant the entry API maintains — every path row of
the table holds at least one type entry — the import table is non-empty
exactly when `fmt_imports` emits at least one import statement, so the blank
separator line follows the imports if and only if at least one import
statement was emitted. -/
theorem c7_separator_iff_statements (s : Scope)
    (h : ∀ pr ∈ Scope.imports s, pr.2 ≠ []) :
    (∀ f, Scope.fmt_imports s f = f.writeStr (concatAll (importLines s)))
      ∧ (importLines s = [] ↔ Scope.imports s = []) := by
  refine ⟨fun f => fmt_imports_eq_writeStr s f, ?_, ?_⟩
  · intro hlines
    cases him : Scope.imports s with
    | nil => rfl
    | cons pr rest =>
      obtain ⟨p0, row⟩ := pr
      cases hr : row with
      | nil =>
        have hrow := h (p0, row) (by rw [him]; exact List.mem_cons_self _ _)
        exact absurd hr hrow
      | cons e es =>
        rw [hr] at him
        exact absurd hlines (importLines_ne_nil him)
  · intro himp
    unfold importLines
    have hv : Scope.importVisibilities s = [] := by
      unfold Scope.importVisibilities
      rw [himp]
      rfl
    rw [hv]
    rfl

theorem c7_separator_iff_statements_witness :
    ((∀ f, Scope.fmt_imports (Scope.new.importRaw "a" "X") f
        = f.writeStr (concatAll (importLines (Scope.new.importRaw "a" "X"))))
      ∧ (importLines (Scope.new.importRaw "a" "X") = []
          ↔ Scope.imports (Scope.new.importRaw "a" "X") = [])) :=
  c7_separator_iff_statements (Scope.new.importRaw "a" "X") (by decide)

/-!
The public-API reachability invariant (C8): one mutating call of the fluent
builder API, modelled as an operation on a scope.  A panic is `none`.
-/

inductive Op where
  | pushModule (m : Module)
  | newModule (n : String)
  | getOrNewModule (n : String)
  | pushStruct (v : Struct)
  | newStruct (n : String)
  | pushFn (v : Function)
  | newFn (n : String)
  | pushTrait (v : Trait)
  | newTrait (n : String)
  | pushEnum (v : Enum)
  | newEnum (n : String)
  | pushImpl (v : Impl)
  | newImpl (t : RsType)
  | pushConst (v : Const)
  | newConst (t : RsType)
  | pushTypeAlias (v : TypeAlias)
  | newTypeAlias (n target : String)
  | importOp (p t : String) (v : Option String)
  | docOp (d : String)
  | rawOp (v : String)

def Scope.applyOp (s : Scope) : Op → Option Scope
  | .pushModule m => s.push_module m
  | .newModule n => (s.new_module n).map Prod.fst
  | .getOrNewModule n => (s.get_or_new_module n).map Prod.fst
  | .pushStruct v => some (s.push_struct v)
  | .newStruct n => (s.new_struct n).map Prod.fst
  | .pushFn v => some (s.push_fn v)
  | .newFn n => (s.new_fn n).map Prod.fst
  | .pushTrait v => some (s.push_trait v)
  | .newTrait n => (s.new_trait n).map Prod.fst
  | .pushEnum v => some (s.push_enum v)
  | .newEnum n => (s.new_enum n).map Prod.fst
  | .pushImpl v => some (s.push_impl v)
  | .newImpl t => (s.new_impl t).map Prod.fst
  | .pushConst v => some (s.push_const v)
  | .newConst t => (s.new_const t).map Prod.fst
  | .pushTypeAlias v => some (s.push_type_alias v)
  | .newTypeAlias n target => (s.new_type_alias n target).map Prod.fst
  | .importOp p t v => some (s.importWith p t v)
  | .docOp d => some (s.doc d)
  | .rawOp v => some (s.raw v)

/-- A non-panicking run of a sequence of public-API calls starting from
`Scope::new`. -/
def runOps (ops : List Op) : Option Scope :=
  ops.foldl (fun acc op => acc.bind (fun s => s.applyOp op)) (some Scope.new)

/-- The names of the module-typed items of a scope, in item order. -/
def moduleNames (s : Scope) : List String :=
  s.items.filterMap (fun item =>
    match item with
    | Item.module m => some m.name
    | _ => none)

/-- The invariant: at most one module item per name. -/
def ModNamesUnique (s : Scope) : Prop := (moduleNames s).Nodup

theorem filterMap_modules_eq_nil_iff (n : String) (its : List Item) :
    ((its.filterMap fun item =>
      match item with
      | Item.module m => if m.name = n then some m else none
      | _ => none) = [])
    ↔ n ∉ (its.filterMap fun item =>
      match item with
      | Item.module m => some m.name
      | _ => none) := by
  induction its with
  | nil => simp
  | cons it rest ih =>
    cases it
    case module m =>
      by_cases hm : m.name = n
      · simp [List.filterMap_cons, hm]
      · simp [List.filterMap_cons, hm, ih, Ne.symm hm]
    all_goals simpa [List.filterMap_cons] using ih

theorem get_module_eq_none_iff (s : Scope) (n : String) :
    s.get_module n = none ↔ n ∉ moduleNames s := by
  unfold Scope.get_module moduleNames
  rw [List.head?_eq_none_iff]
  exact filterMap_modules_eq_nil_iff n s.items

theorem moduleNames_append_module (s : Scope) (m : Module) :
    moduleNames (s.withItems (s.items ++ [Item.module m])) = moduleNames s ++ [m.name] := by
  simp [moduleNames, List.filterMap_append]

/-- One non-panicking public-API call preserves module-name uniqueness. -/
theorem applyOp_preserves {s s' : Scope} {op : Op} (h : ModNamesUnique s)
    (hs : s.applyOp op = some s') : ModNamesUnique s' := by
  have hnodup : (moduleNames s).Nodup := h
  have hpush : ∀ m : Module, s.push_module m = some s' → ModNamesUnique s' := by
    intro m hp
    unfold Scope.push_module at hp
    by_cases hc : (s.get_module m.name).isSome
    · rw [if_pos hc] at hp
      exact absurd hp (by simp)
    · rw [if_neg hc] at hp
      have hnone : s.get_module m.name = none := Option.not_isSome_iff_eq_none.mp hc
      have hnm : m.name ∉ moduleNames s := (get_module_eq_none_iff s m.name).mp hnone
      have hmn : moduleNames s' = moduleNames s ++ [m.name] := by
        rw [← Option.some.injEq _ _ |>.mp hp]
        exact moduleNames_append_module s m
      unfold ModNamesUnique
      rw [hmn]
      simp [List.nodup_append, hnodup, hnm]
  have hnewmod : ∀ n : String, (s.new_module n).map Prod.fst = some s'
      → ModNamesUnique s' := by
    intro n hn
    unfold Scope.new_module at hn
    cases hp : s.push_module (Module.new n) with
    | none =>
      rw [hp] at hn
      exact absurd hn (by simp)
    | some s2 =>
      rw [hp] at hn
      have hn' : Option.map Prod.fst (match s2.items.getLast? with
          | some (Item.module v) => some (s2, v)
          | _ => none) = some s' := hn
      cases hl : s2.items.getLast? with
      | none =>
        rw [hl] at hn'
        exact absurd hn' (by simp)
      | some it =>
        rw [hl] at hn'
        cases it
        case module v =>
          have hss : s2 = s' := by simpa using hn'
          exact hpush (Module.new n) (hp.trans (by rw [hss]))
        all_goals exact absurd hn' (by simp)
  cases op with
  | pushModule m => exact hpush m hs
  | newModule n => exact hnewmod n hs
  | getOrNewModule n =>
    have hs' : (s.get_or_new_module n).map Prod.fst = some s' := hs
    unfold Scope.get_or_new_module at hs'
    by_cases hc : (s.get_module n).isSome
    · rw [if_pos hc] at hs'
      obtain ⟨m, hm⟩ := Option.isSome_iff_exists.mp hc
      rw [hm] at hs'
      simp only [Option.map_map, Option.map_some'] at hs'
      have : s = s' := by simpa using hs'
      rwa [← this]
    · rw [if_neg hc] at hs'
      exact hnewmod n hs'
  | pushStruct v =>
    have hs' : s.push_struct v = s' := by simpa [Scope.applyOp] using hs
    unfold ModNamesUnique
    rw [← hs']
    simpa [moduleNames, Scope.push_struct, List.filterMap_append] using hnodup
  | newStruct n =>
    have hs' : s.push_struct (Struct.new n) = s' := by
      simpa [Scope.applyOp, Scope.new_struct, Scope.push_struct,
        getLast?_append_singleton] using hs
    unfold ModNamesUnique
    rw [← hs']
    simpa [moduleNames, Scope.push_struct, List.filterMap_append] using hnodup
  | pushFn v =>
    have hs' : s.push_fn v = s' := by simpa [Scope.applyOp] using hs
    unfold ModNamesUnique
    rw [← hs']
    simpa [moduleNames, Scope.push_fn, List.filterMap_append] using hnodup
  | newFn n =>
    have hs' : s.push_fn (Function.new n) = s' := by
      simpa [Scope.applyOp, Scope.new_fn, Scope.push_fn,
        getLast?_append_singleton] using hs
    unfold ModNamesUnique
    rw [← hs']
    simpa [moduleNames, Scope.push_fn, List.filterMap_append] using hnodup
  | pushTrait v =>
    have hs' : s.push_trait v = s' := by simpa [Scope.applyOp] using hs
    unfold ModNamesUnique
    rw [← hs']
    simpa [moduleNames, Scope.push_trait, List.filterMap_append] using hnodup
  | newTrait n =>
    have hs' : s.push_trait (Trait.new n) = s' := by
      simpa [Scope.applyOp, Scope.new_trait, Scope.push_trait,
        getLast?_append_singleton] using hs
    unfold ModNamesUnique
    rw [← hs']
    simpa [moduleNames, Scope.push_trait, List.filterMap_append] using hnodup
  | pushEnum v =>
    have hs' : s.push_enum v = s' := by simpa [Scope.applyOp] using hs
    unfold ModNamesUnique
    rw [← hs']
    simpa [moduleNames, Scope.push_enum, List.filterMap_append] using hnodup
  | newEnum n =>
    have hs' : s.push_enum (Enum.new n) = s' := by
      simpa [Scope.applyOp, Scope.new_enum, Scope.push_enum,
        getLast?_append_singleton] using hs
    unfold ModNamesUnique
    rw [← hs']
    simpa [moduleNames, Scope.push_enum, List.filterMap_append] using hnodup
  | pushImpl v =>
    have hs' : s.push_impl v = s' := by simpa [Scope.applyOp] using hs
    unfold ModNamesUnique
    rw [← hs']
    simpa [moduleNames, Scope.push_impl, List.filterMap_append] using hnodup
  | newImpl t =>
    have hs' : s.push_impl (Impl.new t) = s' := by
      simpa [Scope.applyOp, Scope.new_impl, Scope.push_impl,
        getLast?_append_singleton] using hs
    unfold ModNamesUnique
    rw [← hs']
    simpa [moduleNames, Scope.push_impl, List.filterMap_append] using hnodup
  | pushConst v =>
    have hs' : s.push_const v = s' := by simpa [Scope.applyOp] using hs
    unfold ModNamesUnique
    rw [← hs']
    simpa [moduleNames, Scope.push_const, List.filterMap_append] using hnodup
  | newConst t =>
    have hs' : s.push_const (Const.new t) = s' := by
      simpa [Scope.applyOp, Scope.new_const, Scope.push_const,
        getLast?_append_singleton] using hs
    unfold ModNamesUnique
    rw [← hs']
    simpa [moduleNames, Scope.push_const, List.filterMap_append] using hnodup
  | pushTypeAlias v =>
    have hs' : s.push_type_alias v = s' := by simpa [Scope.applyOp] using hs
    unfold ModNamesUnique
    rw [← hs']
    simpa [moduleNames, Scope.push_type_alias, List.filterMap_append] using hnodup
  | newTypeAlias n target =>
    have hs' : s.push_type_alias (TypeAlias.new n target) = s' := by
      simpa [Scope.applyOp, Scope.new_type_alias, Scope.push_type_alias,
        getLast?_append_singleton] using hs
    unfold ModNamesUnique
    rw [← hs']
    simpa [moduleNames, Scope.push_type_alias, List.filterMap_append] using hnodup
  | importOp p t v =>
    have hs' : s.importWith p t v = s' := by simpa [Scope.applyOp] using hs
    have him : moduleNames s' = moduleNames s := by
      rw [← hs']
      cases v with
      | none => cases s; rfl
      | some v2 => cases s; rfl
    unfold ModNamesUnique
    rw [him]
    exact hnodup
  | docOp d =>
    have hs' : s.doc d = s' := by simpa [Scope.applyOp] using hs
    have him : moduleNames s' = moduleNames s := by
      rw [← hs']
      cases s
      rfl
    unfold ModNamesUnique
    rw [him]
    exact hnodup
  | rawOp v =>
    have hs' : s.raw v = s' := by simpa [Scope.applyOp] using hs
    unfold ModNamesUnique
    rw [← hs']
    simpa [moduleNames, Scope.raw, List.filterMap_append] using hnodup

theorem runOps_from_none (ops : List Op) :
    ops.foldl (fun acc op => acc.bind (fun s => s.applyOp op)) (none : Option Scope)
      = none := by
  induction ops with
  | nil => rfl
  | cons op rest ih =>
    rw [List.foldl_cons]
    exact ih

/-- C8: every scope reachable through a non-panicking sequence of public-API
calls starting from `Scope::new` holds at most one module item with any given
name; each operation preserves the invariant. -/
theorem c8_module_names_unique_reachable (ops : List Op) (s : Scope)
    (h : runOps ops = some s) : ModNamesUnique s := by
  suffices hgen : ∀ (ops : List Op) (s0 s : Scope), ModNamesUnique s0 →
      ops.foldl (fun acc op => acc.bind (fun s => s.applyOp op)) (some s0) = some s →
      ModNamesUnique s by
    exact hgen ops Scope.new s List.nodup_nil h
  intro ops
  induction ops with
  | nil =>
    intro s0 s h0 hr
    simp only [List.foldl_nil, Option.some.injEq] at hr
    rwa [← hr]
  | cons op rest ih =>
    intro s0 s h0 hr
    rw [List.foldl_cons] at hr
    simp only [Option.some_bind] at hr
    cases hso : s0.applyOp op with
    | none =>
      rw [hso, runOps_from_none] at hr
      exact absurd hr (by simp)
    | some s1 =>
      rw [hso] at hr
      exact ih s1 s (applyOp_preserves h0 hso) hr

theorem c8_module_names_unique_reachable_witness :
    ModNamesUnique (Scope.mk none []
      [Item.module (Module.new "a"), Item.struct (Struct.new "s")]) :=
  c8_module_names_unique_reachable [Op.newModule "a", Op.pushStruct (Struct.new "s")]
    (Scope.mk none [] [Item.module (Module.new "a"), Item.struct (Struct.new "s")]) rfl

end Codegen
